import Mathlib

/-!
Verification of the hls-proxy-warm warming engine against its design
specification.  The Go sources are shallowly embedded: pure string
processing becomes Lean functions on `String`/`List Char`, the worker
pool and the daemon scheduler become explicit transition systems, and
float64 arithmetic is modelled by exact rationals extended with the
IEEE special values NaN and ±Inf (rounding is abstracted away; the
claims under study only concern the special-value behaviour and the
algebraic formula).
-/

/-! ## String sanitisation (utils.go, cleanString) -/

/-- The character predicate of `cleanString` (utils.go lines 40-47):
printable ASCII (32..126) plus tab (9), newline (10) and carriage
return (13) are kept, every other rune is removed. -/
def keepRune (c : Char) : Bool :=
  (32 ≤ c.toNat && c.toNat ≤ 126) || c.toNat == 9 || c.toNat == 10 || c.toNat == 13

/-- Go `strings.ReplaceAll(s, "\x00", "")` (utils.go line 37): a one-byte
pattern, so it removes exactly the NUL characters. -/
def removeNullBytes (s : String) : String :=
  String.mk (s.data.filter (fun c => c.toNat ≠ 0))

/-- The function `cleanString` (utils.go lines 35-48): drop NUL bytes, then keep only
printable ASCII plus tab/newline/carriage-return (`strings.Map`
returning -1 removes a rune). -/
def cleanString (s : String) : String :=
  String.mk ((removeNullBytes s).data.filter keepRune)

theorem cleanString_data (s : String) :
    (cleanString s).data = (s.data.filter (fun c => c.toNat ≠ 0)).filter keepRune := rfl

theorem cleanString_all_keepRune (s : String) :
    (cleanString s).data.all keepRune = true := by
  rw [List.all_eq_true]
  intro c hc
  rw [cleanString_data] at hc
  exact (List.mem_filter.mp hc).2

theorem keepRune_ne_zero (c : Char) (h : keepRune c = true) : c.toNat ≠ 0 := by
  unfold keepRune at h
  simp only [Bool.or_eq_true, Bool.and_eq_true, decide_eq_true_eq, beq_iff_eq] at h
  omega

theorem cleanString_of_all_keepRune (s : String) (h : s.data.all keepRune = true) :
    cleanString s = s := by
  have hdata : (cleanString s).data = s.data := by
    rw [cleanString_data]
    rw [List.all_eq_true] at h
    rw [List.filter_filter]
    apply List.filter_eq_self.mpr
    intro c hc
    have hk := h c hc
    simp only [Bool.and_eq_true, decide_eq_true_eq]
    exact ⟨hk, keepRune_ne_zero c hk⟩
  exact String.ext hdata

/-- C10: for every input string, the output of `cleanString` contains
only printable ASCII characters (codes 32..126) plus tab, newline and
carriage return, and consequently `cleanString` is idempotent. -/
theorem C10_cleanString_printable_and_idempotent (s : String) :
    (cleanString s).data.all keepRune = true ∧
    cleanString (cleanString s) = cleanString s :=
  ⟨cleanString_all_keepRune s,
   cleanString_of_all_keepRune _ (cleanString_all_keepRune s)⟩

/-! ## Cache classifier (http.go, detectCacheHit) -/

/-- Whether the character list `sub` occurs at the start of `l`. -/
def startsWithChars : List Char → List Char → Bool
  | _, [] => true
  | [], _ :: _ => false
  | a :: as, b :: bs => a == b && startsWithChars as bs

/-- Whether the character list `sub` occurs contiguously inside `l`
(the semantics of Go `strings.Contains` on the character level; all
patterns used by the classifier are ASCII, where byte-level and
character-level substring search agree). -/
def hasSubChars : List Char → List Char → Bool
  | [], sub => sub.isEmpty
  | a :: as, sub => startsWithChars (a :: as) sub || hasSubChars as sub

/-- Go `strings.Contains(s, sub)`. -/
def strContains (s sub : String) : Bool :=
  hasSubChars s.data sub.data

/-- Go `strings.ToLower`, modelled characterwise with ASCII lowering
(`Char.toLower` maps A-Z to a-z and fixes everything else; the tokens
the classifier compares against are pure ASCII). -/
def strToLower (s : String) : String :=
  String.mk (s.data.map Char.toLower)

/-- The header names inspected by `detectCacheHit` (http.go lines 59-67),
in loop order. -/
def cacheHeaderNames : List String :=
  ["X-Cache", "X-Cache-Status", "X-Served-By", "CF-Cache-Status",
   "X-Fastly-Cache", "X-Varnish-Cache", "Age"]

/-- The six vendor cache headers (all of `cacheHeaderNames` except Age). -/
def vendorCacheHeaderNames : List String :=
  ["X-Cache", "X-Cache-Status", "X-Served-By", "CF-Cache-Status",
   "X-Fastly-Cache", "X-Varnish-Cache"]

/-- The hit indicator tokens (http.go line 73). -/
def hitIndicators : List String := ["hit", "HIT", "cached", "CACHED"]

/-- The classifier `detectCacheHit` (http.go lines 57-88).  Response headers are
modelled by their Go accessor `resp.Header.Get`: a function from header
name to first value, returning `""` when the header is absent.  The loop
checks each listed header value for a case-insensitive hit/cached
substring; independently a non-empty `Age` value other than `"0"`
classifies as hit. -/
def detectCacheHit (get : String → String) : Bool :=
  (cacheHeaderNames.any fun name =>
    let v := get name
    v != "" && hitIndicators.any fun ind =>
      strContains (strToLower v) (strToLower ind))
  || (get "Age" != "" && get "Age" != "0")

/-- The hit verdict as a function of the Age value alone. -/
def ageOnlyVerdict (a : String) : Bool :=
  (a != "" && hitIndicators.any fun ind => strContains (strToLower a) (strToLower ind))
  || (a != "" && a != "0")

theorem detectCacheHit_of_vendor_absent (get : String → String)
    (h : ∀ name ∈ vendorCacheHeaderNames, get name = "") :
    detectCacheHit get = ageOnlyVerdict (get "Age") := by
  have h1 := h "X-Cache" (by simp [vendorCacheHeaderNames])
  have h2 := h "X-Cache-Status" (by simp [vendorCacheHeaderNames])
  have h3 := h "X-Served-By" (by simp [vendorCacheHeaderNames])
  have h4 := h "CF-Cache-Status" (by simp [vendorCacheHeaderNames])
  have h5 := h "X-Fastly-Cache" (by simp [vendorCacheHeaderNames])
  have h6 := h "X-Varnish-Cache" (by simp [vendorCacheHeaderNames])
  simp only [detectCacheHit, ageOnlyVerdict, cacheHeaderNames, List.any_cons,
    List.any_nil, h1, h2, h3, h4, h5, h6, bne_self_eq_false, Bool.false_and,
    Bool.false_or, Bool.or_false]

theorem ageOnlyVerdict_iff (a : String) :
    ageOnlyVerdict a = true ↔ (a ≠ "" ∧ a ≠ "0") := by
  constructor
  · intro h
    have hne : a ≠ "" := by
      intro he
      subst he
      revert h
      decide
    refine ⟨hne, ?_⟩
    intro h0
    subst h0
    revert h
    decide
  · rintro ⟨h1, h2⟩
    unfold ageOnlyVerdict
    have hb : (a != "" && a != "0") = true := by
      simp only [Bool.and_eq_true, bne_iff_ne, ne_eq]
      exact ⟨h1, h2⟩
    rw [hb, Bool.or_true]

/-- C8: when none of the six vendor cache headers is present (their
`Header.Get` value is empty), the classifier reports a hit exactly when
the `Age` header is present with a value other than the literal `"0"`. -/
theorem C8_age_header_classification (get : String → String)
    (h : ∀ name ∈ vendorCacheHeaderNames, get name = "") :
    detectCacheHit get = true ↔ (get "Age" ≠ "" ∧ get "Age" ≠ "0") := by
  rw [detectCacheHit_of_vendor_absent get h]
  exact ageOnlyVerdict_iff (get "Age")

/-- A header table carrying only `Age: 120`. -/
def ageOnlyGet120 : String → String :=
  fun name => if name = "Age" then "120" else ""

theorem C8_age_header_classification_witness :
    (∀ name ∈ vendorCacheHeaderNames, ageOnlyGet120 name = "") ∧
    detectCacheHit ageOnlyGet120 = true :=
  ⟨by decide, (C8_age_header_classification ageOnlyGet120 (by decide)).mpr (by decide)⟩

/-! ## Float model for the printed cache ratio (warmer.go, PrintResults) -/

/-- Model of a Go float64 value: exact rationals extended with the IEEE
special values.  Rounding of finite results is abstracted away (finite
arithmetic is exact); the special-value rules (0/0 = NaN, x/0 = ±Inf for
x ≠ 0, NaN propagation) follow IEEE 754, which Go float64 division and
multiplication obey. -/
inductive GoFloat where
  | num (q : ℚ)
  | nan
  | posInf
  | negInf
deriving DecidableEq

/-- Division on the float model, per IEEE 754. -/
def goFloatDiv : GoFloat → GoFloat → GoFloat
  | .num a, .num b =>
      if b = 0 then (if a = 0 then .nan else if 0 < a then .posInf else .negInf)
      else .num (a / b)
  | .nan, _ => .nan
  | _, .nan => .nan
  | .posInf, .num b => if 0 ≤ b then .posInf else .negInf
  | .negInf, .num b => if 0 ≤ b then .negInf else .posInf
  | .num _, .posInf => .num 0
  | .num _, .negInf => .num 0
  | _, _ => .nan

/-- Multiplication on the float model, per IEEE 754. -/
def goFloatMul : GoFloat → GoFloat → GoFloat
  | .num a, .num b => .num (a * b)
  | .nan, _ => .nan
  | _, .nan => .nan
  | .posInf, .num b => if b = 0 then .nan else if 0 < b then .posInf else .negInf
  | .num a, .posInf => if a = 0 then .nan else if 0 < a then .posInf else .negInf
  | .negInf, .num b => if b = 0 then .nan else if 0 < b then .negInf else .posInf
  | .num a, .negInf => if a = 0 then .nan else if 0 < a then .negInf else .posInf
  | .posInf, .posInf => .posInf
  | .negInf, .negInf => .posInf
  | _, _ => .negInf

/-- The value printed as "Cache Ratio" by `PrintResults` (warmer.go line
251): `float64(result.CachedFiles) / float64(result.TotalFiles) * 100`.
The source applies no guard for a zero total. -/
def printedCacheRatioValue (cachedFiles totalFiles : ℕ) : GoFloat :=
  goFloatMul (goFloatDiv (.num cachedFiles) (.num totalFiles)) (.num 100)

/-- C3 counterexample: a summary whose total segment count is 0 (and
hence 0 cached files) reports NaN as its cache ratio — the division is
not guarded, contrary to the claim. -/
theorem C3_counterexample : printedCacheRatioValue 0 0 = GoFloat.nan := by
  simp [printedCacheRatioValue, goFloatDiv, goFloatMul]

/-- C3 amended: the reported cache ratio equals hits divided by total,
times 100, whenever the total is positive; but the zero-total case is
not guarded — with 0 total segments the code divides 0 by 0 and the
summary reports NaN. -/
theorem C3_cache_ratio_formula (cached total : ℕ) (h : 0 < total) :
    printedCacheRatioValue cached total = .num ((cached : ℚ) / (total : ℚ) * 100) ∧
    printedCacheRatioValue 0 0 = GoFloat.nan := by
  constructor
  · have ht : ((total : ℚ)) ≠ 0 := Nat.cast_ne_zero.mpr (Nat.pos_iff_ne_zero.mp h)
    simp [printedCacheRatioValue, goFloatDiv, goFloatMul, ht]
  · simp [printedCacheRatioValue, goFloatDiv, goFloatMul]

theorem C3_cache_ratio_formula_witness :
    0 < 2 ∧
    (printedCacheRatioValue 1 2 = .num (((1 : ℕ) : ℚ) / ((2 : ℕ) : ℚ) * 100) ∧
     printedCacheRatioValue 0 0 = GoFloat.nan) :=
  ⟨by decide, C3_cache_ratio_formula 1 2 (by decide)⟩

/-! ## Playlist parser (source part_000, parseM3U8; utils.go, resolveURL) -/

/-- Go ASCII whitespace as recognised by `strings.TrimSpace`
(`unicode.IsSpace` restricted to ASCII: space, tab, newline, vertical
tab, form feed, carriage return). -/
def isGoSpace (c : Char) : Bool :=
  c == ' ' || c == '\t' || c == '\n' || c.toNat == 11 || c.toNat == 12 || c == '\r'

/-- Go `strings.TrimSpace`. -/
def trimSpace (s : String) : String :=
  String.mk (((s.data.dropWhile isGoSpace).reverse.dropWhile isGoSpace).reverse)

/-- Splitting a character stream at newline characters, accumulator
style. -/
def splitLinesAux : List Char → List Char → List (List Char)
  | [], acc => [acc.reverse]
  | c :: rest, acc =>
      if c = '\n' then acc.reverse :: splitLinesAux rest []
      else splitLinesAux rest (c :: acc)

/-- Go `bufio.Scanner` with `ScanLines` (part_000 line 24): split the body
at newlines and strip one trailing carriage return per line.  A trailing
empty line after a final newline is emitted here although the scanner
stops at end of input; the parser's blank-line filter discards it, so
the difference is unobservable in the parser's output. -/
def goScanLines (s : String) : List String :=
  (splitLinesAux s.data []).map fun l =>
    String.mk (if l.getLast? = some '\r' then l.dropLast else l)

/-- Model of a parsed absolute http(s) URL as produced by Go `url.Parse`
for URLs of the shape scheme://host/path (no query, fragment or user
info — the shapes the playlist claims exercise). -/
structure ModelURL where
  scheme : String
  host : String
  path : String
deriving DecidableEq

/-- Go `strings.HasPrefix`. -/
def strStarts (s pre : String) : Bool :=
  startsWithChars s.data pre.data

/-- Modelled from Go net/url: `url.Parse` on an absolute http(s) URL
splits it into scheme, host (up to the first slash after the authority)
and path.  Non-http(s) shapes are outside the model and map to `none`,
standing for the parse-error return of part_000 line 26. -/
def parseAbsURL (s : String) : Option ModelURL :=
  if strStarts s "https://" then
    let rest := s.data.drop 8
    some ⟨"https", String.mk (rest.takeWhile (fun c => c ≠ '/')),
      String.mk (rest.dropWhile (fun c => c ≠ '/'))⟩
  else if strStarts s "http://" then
    let rest := s.data.drop 7
    some ⟨"http", String.mk (rest.takeWhile (fun c => c ≠ '/')),
      String.mk (rest.dropWhile (fun c => c ≠ '/'))⟩
  else none

/-- The base path up to and including its last slash — the merge step of
RFC 3986 §5.3 as implemented by Go `ResolveReference` for relative-path
references. -/
def dirOf (p : String) : String :=
  String.mk ((p.data.reverse.dropWhile (fun c => c ≠ '/')).reverse)

/-- Modelled from Go net/url: `baseURL.ResolveReference(ref).String()`
for a reference that is a plain path, without scheme, authority, query
or fragment: an absolute path replaces the base path, a relative path is
merged onto the base path's directory.  The remove-dot-segments step is
omitted (the claims use dot-segment-free paths). -/
def resolveReferencePath (base : ModelURL) (ref : String) : String :=
  if strStarts ref "/" then base.scheme ++ "://" ++ base.host ++ ref
  else base.scheme ++ "://" ++ base.host ++ dirOf base.path ++ ref

/-- The helper `resolveURL` (utils.go lines 51-64): absolute http(s) references
pass through verbatim, everything else is resolved against the base. -/
def resolveURL (base : ModelURL) (segment : String) : String :=
  if strStarts segment "http://" || strStarts segment "https://" then segment
  else resolveReferencePath base segment

/-- Modelled from Go net/url: `url.Parse` fails exactly on ASCII control
characters in the URL (bytes below 32 and byte 127). -/
def urlParseOk (s : String) : Bool :=
  s.data.all (fun c => 32 ≤ c.toNat && c.toNat ≠ 127)

/-- The control characters of the explicit `strings.ContainsAny` filter
in parseM3U8 (part_000 line 44). -/
def segmentBadChars : List Char :=
  ['\x00', '\x01', '\x02', '\x03', '\x04', '\x05', '\x06', '\x07',
   '\x08', '\x0b', '\x0c', '\x0e', '\x0f']

/-- Go `strings.ContainsAny`. -/
def strContainsAny (s : String) (chars : List Char) : Bool :=
  s.data.any (fun c => chars.contains c)

/-- Go `len` on a string: its UTF-8 byte count. -/
def goStrLen (s : String) : Nat :=
  s.data.foldl (fun n c => n + c.utf8Size) 0

/-- The pure line-processing core of `parseM3U8` (part_000 lines 23-71);
the network fetch is abstracted into the body text.  Per line: trim
whitespace; skip blanks and `#` comments; clean control characters; skip
if empty, containing listed control bytes, or shorter than 5 bytes;
resolve against the base URL; skip on URL parse failure, and skip lines
containing neither `.` nor `seg` nor `chunk`; survivors are appended in
line order. -/
def parseM3U8Body (base : ModelURL) (body : String) : List String :=
  (goScanLines body).filterMap fun raw =>
    let line := trimSpace raw
    if line == "" || strStarts line "#" then none
    else
      let cleanLine := cleanString line
      if goStrLen cleanLine == 0 || strContainsAny cleanLine segmentBadChars then none
      else if goStrLen cleanLine < 5 then none
      else
        let segmentURL := resolveURL base cleanLine
        if !(urlParseOk segmentURL) then none
        else if !(strContains segmentURL "." || strContains segmentURL "seg" ||
                  strContains segmentURL "chunk") then none
        else some segmentURL

/-- The parser `parseM3U8` given the fetched body: parse the playlist's own URL as
the base (part_000 line 26), then extract the segment list; `none`
models the error return when the base URL does not parse. -/
def parseM3U8Doc (m3u8URL body : String) : Option (List String) :=
  (parseAbsURL m3u8URL).map fun base => parseM3U8Body base body

/-- C6: the three-line playlist `#EXTM3U`, `seg001.ts`, `seg002.ts`
fetched from `https://cdn.example/live/index.m3u8` yields exactly
`https://cdn.example/live/seg001.ts` then
`https://cdn.example/live/seg002.ts`, the comment line excluded. -/
theorem C6_parse_playlist_example :
    parseM3U8Doc "https://cdn.example/live/index.m3u8" "#EXTM3U\nseg001.ts\nseg002.ts" =
      some ["https://cdn.example/live/seg001.ts",
            "https://cdn.example/live/seg002.ts"] := by
  decide

/-! ## Daemon dedup ledger (source part_001, warmStreamOnce) -/

/-- Point update of the `processedURLs` ledger
(`h.processedURLs[segment] = time.Now()`). -/
def stampLedger (led : String → Option Int) (seg : String) (t : Int) :
    String → Option Int :=
  fun x => if x = seg then some t else led x

theorem stampLedger_same (led : String → Option Int) (seg : String) (t : Int) :
    stampLedger led seg t seg = some t := by
  simp [stampLedger]

theorem stampLedger_other (led : String → Option Int) (seg x : String) (t : Int)
    (h : x ≠ seg) : stampLedger led seg t x = led x := by
  simp [stampLedger, h]

/-- The newness test of part_001 lines 71-72: a segment is new when it
is absent from the ledger (`!seen`) or its stamp is older than the TTL
(`time.Since(last) > h.processedTTL`).  Time is modelled by integers;
one `now` stands for the tick's clock readings. -/
def segmentIsNew (ttl now : Int) (led : String → Option Int) (seg : String) : Bool :=
  match led seg with
  | none => true
  | some last => decide (now - last > ttl)

/-- The first selection loop of `warmStreamOnce` (part_001 lines 68-77):
walk the parsed segment list in order; every new segment is appended to
the new-segment list and its ledger entry stamped with the current
time. -/
def selectNew (ttl now : Int) :
    List String → (String → Option Int) → List String × (String → Option Int)
  | [], led => ([], led)
  | seg :: rest, led =>
      if segmentIsNew ttl now led seg then
        let p := selectNew ttl now rest (stampLedger led seg now)
        (seg :: p.1, p.2)
      else selectNew ttl now rest led

/-- The rewarm loop of `warmStreamOnce` (part_001 lines 86-99): walk the
tail window; a window segment not yet in the fetch list is appended (the
`included` set is exactly membership of the accumulated list), and every
window segment is re-stamped regardless of freshness. -/
def rewarmLoop (now : Int) :
    List String → List String → (String → Option Int) →
    List String × (String → Option Int)
  | [], acc, led => (acc, led)
  | s :: rest, acc, led =>
      rewarmLoop now rest (if acc.contains s then acc else acc ++ [s])
        (stampLedger led s now)

/-- The fetch-set selection of one daemon tick (`warmStreamOnce`,
part_001 lines 67-101): the new-segment partition followed, when the
rewarm-last-N policy is configured (`h.rewarmLast > 0`), by the rewarm
loop over the last N positions of the current playlist order
(`start = len - rewarmLast` when the list is longer than N, else 0). -/
def selectSegmentsForWarm (ttl now : Int) (rewarmLast : ℕ) (segments : List String)
    (led : String → Option Int) : List String × (String → Option Int) :=
  let p := selectNew ttl now segments led
  if 0 < rewarmLast then
    let start := if segments.length > rewarmLast then segments.length - rewarmLast else 0
    rewarmLoop now (segments.drop start) p.1 p.2
  else p

theorem selectNew_fresh_skip (ttl now T : Int) (seg : String) (hT : ¬ now - T > ttl) :
    ∀ (segs : List String) (led : String → Option Int), led seg = some T →
      seg ∉ (selectNew ttl now segs led).1 ∧ (selectNew ttl now segs led).2 seg = some T := by
  intro segs
  induction segs with
  | nil =>
    intro led hled
    exact ⟨List.not_mem_nil seg, hled⟩
  | cons s rest ih =>
    intro led hled
    by_cases hs : s = seg
    · subst hs
      have hnew : segmentIsNew ttl now led s = false := by
        simp [segmentIsNew, hled, hT]
      simp only [selectNew, hnew, Bool.false_eq_true, if_false]
      exact ih led hled
    · have hled2 : stampLedger led s now seg = some T :=
        (stampLedger_other led s seg now (Ne.symm hs)).trans hled
      cases hnew : segmentIsNew ttl now led s with
      | false =>
        simp only [selectNew, hnew, Bool.false_eq_true, if_false]
        exact ih led hled
      | true =>
        simp only [selectNew, hnew, if_true]
        obtain ⟨hmem, hstamp⟩ := ih (stampLedger led s now) hled2
        refine ⟨?_, hstamp⟩
        intro hcons
        rcases List.mem_cons.mp hcons with h | h
        · exact hs h.symm
        · exact hmem h

theorem selectNew_expired_pick (ttl now T : Int) (seg : String)
    (httl : 0 ≤ ttl) (hT : now - T > ttl) :
    ∀ (segs : List String) (led : String → Option Int), seg ∈ segs → led seg = some T →
      seg ∈ (selectNew ttl now segs led).1 ∧
      (selectNew ttl now segs led).2 seg = some now := by
  intro segs
  induction segs with
  | nil =>
    intro led hmem
    exact absurd hmem (List.not_mem_nil seg)
  | cons s rest ih =>
    intro led hmem hled
    by_cases hs : s = seg
    · subst hs
      have hnew : segmentIsNew ttl now led s = true := by
        simp [segmentIsNew, hled, hT]
      simp only [selectNew, hnew, if_true]
      have hfresh : ¬ now - now > ttl := by omega
      have htail := selectNew_fresh_skip ttl now now s hfresh rest
        (stampLedger led s now) (stampLedger_same led s now)
      exact ⟨List.mem_cons_self s _, htail.2⟩
    · have hmem2 : seg ∈ rest := by
        rcases List.mem_cons.mp hmem with h | h
        · exact absurd h.symm hs
        · exact h
      have hled2 : stampLedger led s now seg = some T :=
        (stampLedger_other led s seg now (Ne.symm hs)).trans hled
      cases hnew : segmentIsNew ttl now led s with
      | false =>
        simp only [selectNew, hnew, Bool.false_eq_true, if_false]
        exact ih led hmem2 hled
      | true =>
        simp only [selectNew, hnew, if_true]
        obtain ⟨h1, h2⟩ := ih (stampLedger led s now) hmem2 hled2
        exact ⟨List.mem_cons_of_mem s h1, h2⟩

/-- C4: a segment stamped at time T is excluded from the "new" set by a
tick at T + TTL/2, and a tick at T + TTL + ε (ε > 0) selects it as new
again and re-stamps its ledger entry with the tick's current time. -/
theorem C4_dedup_ttl_window (ttl T eps : Int) (segments : List String) (seg : String)
    (led : String → Option Int) (httl : 0 ≤ ttl) (heps : 0 < eps)
    (hmem : seg ∈ segments) (hled : led seg = some T) :
    seg ∉ (selectNew ttl (T + ttl / 2) segments led).1 ∧
    seg ∈ (selectNew ttl (T + ttl + eps) segments led).1 ∧
    (selectNew ttl (T + ttl + eps) segments led).2 seg = some (T + ttl + eps) := by
  have hhalf : ¬ T + ttl / 2 - T > ttl := by omega
  have hexp : T + ttl + eps - T > ttl := by omega
  refine ⟨(selectNew_fresh_skip ttl (T + ttl / 2) T seg hhalf segments led hled).1, ?_, ?_⟩
  · exact (selectNew_expired_pick ttl (T + ttl + eps) T seg httl hexp segments led hmem hled).1
  · exact (selectNew_expired_pick ttl (T + ttl + eps) T seg httl hexp segments led hmem hled).2

/-- A ledger holding exactly one segment, stamped at time 0. -/
def singleStampLedger : String → Option Int :=
  fun s => if s = "seg-a.ts" then some 0 else none

theorem C4_dedup_ttl_window_witness :
    "seg-a.ts" ∉ (selectNew 10 (0 + 10 / 2) ["seg-a.ts"] singleStampLedger).1 ∧
    "seg-a.ts" ∈ (selectNew 10 (0 + 10 + 3) ["seg-a.ts"] singleStampLedger).1 ∧
    (selectNew 10 (0 + 10 + 3) ["seg-a.ts"] singleStampLedger).2 "seg-a.ts" =
      some (0 + 10 + 3) :=
  C4_dedup_ttl_window 10 0 3 ["seg-a.ts"] "seg-a.ts" singleStampLedger
    (by decide) (by decide) (by decide) (by decide)

theorem selectNew_all_fresh (ttl now : Int) :
    ∀ (segs : List String) (led : String → Option Int),
      (∀ s ∈ segs, ∃ t, led s = some t ∧ now - t ≤ ttl) →
      selectNew ttl now segs led = ([], led) := by
  intro segs
  induction segs with
  | nil =>
    intro led _
    rfl
  | cons s rest ih =>
    intro led hfresh
    obtain ⟨t, hline, hts⟩ := hfresh s (List.mem_cons_self s rest)
    have hnew : segmentIsNew ttl now led s = false := by
      simp only [segmentIsNew, hline, decide_eq_false_iff_not]
      omega
    simp only [selectNew, hnew, Bool.false_eq_true, if_false]
    exact ih led fun x hx => hfresh x (List.mem_cons_of_mem s hx)

theorem drop_length_sub_one : ∀ (l : List String) (h : l ≠ []),
    l.drop (l.length - 1) = [l.getLast h]
  | [], h => absurd rfl h
  | [a], _ => rfl
  | a :: b :: u, _ => by
    have ih := drop_length_sub_one (b :: u) (List.cons_ne_nil b u)
    have hlen2 : (b :: u).length - 1 = u.length := by simp
    rw [hlen2] at ih
    have hlen : (a :: b :: u).length - 1 = u.length + 1 := by simp
    rw [hlen, List.drop_succ_cons, ih, List.getLast_cons (List.cons_ne_nil b u)]

/-- C5: with rewarm-last = 1, a tick in which every segment of the
playlist is still fresh in the ledger (nothing is new) nevertheless
selects exactly the final segment of the current playlist order, without
duplication, and re-stamps its ledger entry with the tick's time. -/
theorem C5_rewarm_last_segment (ttl now : Int) (segments : List String)
    (led : String → Option Int) (hne : segments ≠ [])
    (hfresh : ∀ s ∈ segments, ∃ t, led s = some t ∧ now - t ≤ ttl) :
    (selectSegmentsForWarm ttl now 1 segments led).1 = [segments.getLast hne] ∧
    (selectSegmentsForWarm ttl now 1 segments led).2 (segments.getLast hne) = some now := by
  have hsel : selectNew ttl now segments led = ([], led) :=
    selectNew_all_fresh ttl now segments led hfresh
  have hstart : (if segments.length > 1 then segments.length - 1 else 0) =
      segments.length - 1 := by
    by_cases h : segments.length > 1
    · simp [h]
    · have h0 : 0 < segments.length := List.length_pos.mpr hne
      have h1 : segments.length = 1 := by omega
      simp [h, h1]
  have hdrop := drop_length_sub_one segments hne
  simp only [selectSegmentsForWarm, hsel, Nat.lt_irrefl, hstart, hdrop, if_true,
    Nat.zero_lt_one, rewarmLoop, List.contains_nil, Bool.false_eq_true, if_false,
    List.nil_append]
  exact ⟨trivial, stampLedger_same led (segments.getLast hne) now⟩

/-- A ledger in which every segment is stamped at time 0. -/
def allZeroLedger : String → Option Int := fun _ => some 0

theorem C5_rewarm_last_segment_witness :
    (selectSegmentsForWarm 10 5 1 ["a.ts", "b.ts"] allZeroLedger).1 =
      [(["a.ts", "b.ts"] : List String).getLast (by decide)] ∧
    (selectSegmentsForWarm 10 5 1 ["a.ts", "b.ts"] allZeroLedger).2
      ((["a.ts", "b.ts"] : List String).getLast (by decide)) = some 5 :=
  C5_rewarm_last_segment 10 5 ["a.ts", "b.ts"] allZeroLedger (by decide)
    (fun s _ => ⟨0, rfl, by decide⟩)

/-! ## Fetch executor worker pool (warmer.go, warmSegments / worker) -/

/-- A fetch outcome as assembled by `warmSegment` (config.go,
CacheStatus): the URL, the hit flag, the HTTP status code, the
first-value header snapshot, an optional failure text, and the elapsed
duration. -/
structure CacheStatus where
  url : String
  hit : Bool
  statusCode : ℕ
  headers : List (String × String)
  errorText : Option String
  duration : Int
deriving DecidableEq

/-- One state of the worker pool of `warmSegments` (warmer.go lines
132-161): the jobs still queued, the occupancy of the fixed worker pool
(each of the N workers is idle or fetching one URL), and the outcomes
collected from the results channel so far, in completion order. -/
structure PoolState where
  jobs : List String
  workers : List (Option String)
  results : List CacheStatus
deriving DecidableEq

/-- The pool state when `warmSegments` begins: the queue seeded with
every segment in input order (lines 144-147), N idle workers (lines
138-141), no results. -/
def initPool (segments : List String) (n : ℕ) : PoolState :=
  ⟨segments, List.replicate n none, []⟩

/-- Interleaving semantics of the pool, parameterised by the outcome
`fetch` of one `warmSegment` call per URL: an idle worker receives the
next queued job (`for segmentURL := range jobs`, line 167), or a busy
worker finishes its fetch and emits the outcome on the results channel
(line 169). -/
inductive PoolStep (fetch : String → CacheStatus) : PoolState → PoolState → Prop
  | grab (s : PoolState) (i : ℕ) (u : String) (rest : List String)
      (hw : s.workers.get? i = some none) (hj : s.jobs = u :: rest) :
      PoolStep fetch s ⟨rest, s.workers.set i (some u), s.results⟩
  | finish (s : PoolState) (i : ℕ) (u : String)
      (hw : s.workers.get? i = some (some u)) :
      PoolStep fetch s ⟨s.jobs, s.workers.set i none, s.results ++ [fetch u]⟩

/-- Pool states reachable during one `warmSegments` invocation. -/
def PoolReachable (fetch : String → CacheStatus) (segments : List String) (n : ℕ)
    (s : PoolState) : Prop :=
  Relation.ReflTransGen (PoolStep fetch) (initPool segments n) s

/-- The drained pool: queue empty and every worker idle — the point
where `wg.Wait` returns, the results channel closes and `warmSegments`
returns the collected list (lines 150-160). -/
def PoolDone (s : PoolState) : Bool :=
  s.jobs.isEmpty && s.workers.all (fun w => w == none)

/-- The URLs whose fetches are in flight. -/
def busyList (s : PoolState) : List String :=
  s.workers.filterMap id

/-- Number of HTTP requests concurrently in flight. -/
def busyCount (s : PoolState) : ℕ :=
  (busyList s).length

theorem filterMap_id_replicate_none (n : ℕ) :
    (List.replicate n (none : Option String)).filterMap id = [] := by
  induction n with
  | zero => rfl
  | succ k ih => simp [List.replicate_succ, ih]

theorem filterMap_set_some_perm :
    ∀ (ws : List (Option String)) (i : ℕ) (x : String), ws.get? i = some none →
      ((ws.set i (some x)).filterMap id).Perm (x :: ws.filterMap id) := by
  intro ws
  induction ws with
  | nil =>
    intro i x h
    simp at h
  | cons w t ih =>
    intro i x h
    cases i with
    | zero =>
      have hw : w = none := by
        simpa using h
      subst hw
      simp
    | succ j =>
      have hj : t.get? j = some none := by
        simpa using h
      have hperm := ih j x hj
      cases w with
      | none =>
        simpa using hperm
      | some y =>
        simp only [List.set_cons_succ, List.filterMap_cons, id]
        exact (hperm.cons y).trans (List.Perm.swap x y (t.filterMap id))

theorem filterMap_set_none_perm :
    ∀ (ws : List (Option String)) (i : ℕ) (u : String), ws.get? i = some (some u) →
      (ws.filterMap id).Perm (u :: (ws.set i none).filterMap id) := by
  intro ws
  induction ws with
  | nil =>
    intro i u h
    simp at h
  | cons w t ih =>
    intro i u h
    cases i with
    | zero =>
      have hw : w = some u := by
        simpa using h
      subst hw
      simp
    | succ j =>
      have hj : t.get? j = some (some u) := by
        simpa using h
      have hperm := ih j u hj
      cases w with
      | none =>
        simpa using hperm
      | some y =>
        simp only [List.set_cons_succ, List.filterMap_cons, id]
        exact (hperm.cons y).trans (List.Perm.swap u y _)

/-- The outcomes owed by the queue and the in-flight fetches together
with those already collected, as a multiset. -/
def poolOutcomes (fetch : String → CacheStatus) (s : PoolState) : Multiset CacheStatus :=
  (s.jobs.map fetch : Multiset CacheStatus)
    + ((busyList s).map fetch : Multiset CacheStatus)
    + (s.results : Multiset CacheStatus)

theorem pool_invariant (fetch : String → CacheStatus) (segments : List String) (n : ℕ)
    (s : PoolState) (h : PoolReachable fetch segments n s) :
    s.workers.length = n ∧
    poolOutcomes fetch s = (segments.map fetch : Multiset CacheStatus) := by
  induction h with
  | refl =>
    refine ⟨by simp [initPool], ?_⟩
    simp [poolOutcomes, initPool, busyList, filterMap_id_replicate_none]
  | @tail b c hr hstep ih =>
    obtain ⟨ihlen, ihms⟩ := ih
    cases hstep with
    | grab i u rest hw hj =>
      refine ⟨by simpa using ihlen, ?_⟩
      have hbusy : (((b.workers.set i (some u)).filterMap id).map fetch :
          Multiset CacheStatus) = ((u :: b.workers.filterMap id).map fetch :
          Multiset CacheStatus) :=
        Multiset.coe_eq_coe.mpr ((filterMap_set_some_perm b.workers i u hw).map fetch)
      rw [← ihms]
      simp only [poolOutcomes, busyList, hj]
      rw [hbusy]
      simp only [List.map_cons, ← Multiset.cons_coe, Multiset.cons_add, Multiset.add_cons]
    | finish i u hw =>
      refine ⟨by simpa using ihlen, ?_⟩
      have hbusy : ((b.workers.filterMap id).map fetch : Multiset CacheStatus)
          = ((u :: (b.workers.set i none).filterMap id).map fetch :
          Multiset CacheStatus) :=
        Multiset.coe_eq_coe.mpr ((filterMap_set_none_perm b.workers i u hw).map fetch)
      rw [← ihms]
      simp only [poolOutcomes, busyList]
      rw [hbusy]
      simp only [List.map_cons, Multiset.coe_add, ← Multiset.cons_coe, Multiset.cons_add,
        Multiset.add_cons, Multiset.singleton_add, add_assoc, add_left_comm, add_comm,
        ← List.append_assoc]
      rw [Multiset.cons_coe]
      apply Multiset.coe_eq_coe.mpr
      simp only [List.append_assoc, List.singleton_append]
      exact List.perm_middle

/-- C1: for every segment list and worker count N ≥ 1, when the pool of
`warmSegments` has drained (the point where the function returns), the
collected outcome list has exactly one `warmSegment` outcome per input
URL — same length as the input, no duplicates, no omissions (a
permutation of the input's outcomes). -/
theorem C1_warmSegments_complete_outcomes (fetch : String → CacheStatus)
    (segments : List String) (n : ℕ) (_hn : 1 ≤ n) (s : PoolState)
    (hr : PoolReachable fetch segments n s) (hdone : PoolDone s = true) :
    s.results.length = segments.length ∧ s.results.Perm (segments.map fetch) := by
  obtain ⟨hlen, hms⟩ := pool_invariant fetch segments n s hr
  rw [PoolDone, Bool.and_eq_true] at hdone
  have hjobs : s.jobs = [] := by
    have := hdone.1
    rwa [List.isEmpty_iff] at this
  have hall := hdone.2
  rw [List.all_eq_true] at hall
  have hbusy : busyList s = [] := by
    rw [busyList, List.filterMap_eq_nil_iff]
    intro w hw
    exact beq_iff_eq.mp (hall w hw)
  have hres : (s.results : Multiset CacheStatus) =
      (segments.map fetch : Multiset CacheStatus) := by
    rw [← hms]
    simp [poolOutcomes, hjobs, hbusy]
  have hperm : s.results.Perm (segments.map fetch) := Multiset.coe_eq_coe.mp hres
  refine ⟨?_, hperm⟩
  simpa using hperm.length_eq

/-- A concrete fetch outcome used by the executor witnesses. -/
def witnessFetch : String → CacheStatus :=
  fun u => ⟨u, false, 200, [], none, 1⟩

theorem C1_warmSegments_complete_outcomes_witness :
    (PoolState.mk [] [none] [witnessFetch "u1", witnessFetch "u2"]).results.length =
      (["u1", "u2"] : List String).length ∧
    (PoolState.mk [] [none] [witnessFetch "u1", witnessFetch "u2"]).results.Perm
      ((["u1", "u2"] : List String).map witnessFetch) := by
  have hr : PoolReachable witnessFetch ["u1", "u2"] 1
      ⟨[], [none], [witnessFetch "u1", witnessFetch "u2"]⟩ :=
    Relation.ReflTransGen.tail
      (Relation.ReflTransGen.tail
        (Relation.ReflTransGen.tail
          (Relation.ReflTransGen.single
            (PoolStep.grab (initPool ["u1", "u2"] 1) 0 "u1" ["u2"] rfl rfl))
          (PoolStep.finish ⟨["u2"], [some "u1"], []⟩ 0 "u1" rfl))
        (PoolStep.grab ⟨["u2"], [none], [witnessFetch "u1"]⟩ 0 "u2" [] rfl rfl))
      (PoolStep.finish ⟨[], [some "u2"], [witnessFetch "u1"]⟩ 0 "u2" rfl)
  exact C1_warmSegments_complete_outcomes witnessFetch ["u1", "u2"] 1 (by decide)
    _ hr (by decide)

/-- C9: at no point during one `warmSegments` invocation are more than N
requests concurrently in flight: every reachable pool state has at most
as many busy workers as the fixed pool size N. -/
theorem C9_inflight_bounded_by_workers (fetch : String → CacheStatus)
    (segments : List String) (n : ℕ) (_hn : 1 ≤ n) (s : PoolState)
    (hr : PoolReachable fetch segments n s) :
    busyCount s ≤ n := by
  obtain ⟨hlen, _⟩ := pool_invariant fetch segments n s hr
  calc busyCount s = (s.workers.filterMap id).length := rfl
    _ ≤ s.workers.length := List.length_filterMap_le id s.workers
    _ = n := hlen

theorem C9_inflight_bounded_by_workers_witness :
    busyCount ⟨["u2"], [some "u1"], []⟩ ≤ 1 :=
  C9_inflight_bounded_by_workers witnessFetch ["u1", "u2"] 1 (by decide) _
    (Relation.ReflTransGen.single
      (PoolStep.grab (initPool ["u1", "u2"] 1) 0 "u1" ["u2"] rfl rfl))

/-! ## Daemon scheduler activity flag (warmer.go, beginStreamProcessing /
endStreamProcessing; source part_001, scheduleStreamWarm) -/

/-- Scheduler state: the per-stream activity flags (`streamActive`; Go
map lookup of a deleted/absent key reads false) and the number of
warm-cycle routines currently in flight per stream — the observable the
single-cycle invariant speaks about. -/
structure DaemonState where
  streamActive : String → Bool
  runningCycles : String → ℕ

/-- Point update of the flag map. -/
def setFlag (f : String → Bool) (k : String) (v : Bool) : String → Bool :=
  fun x => if x = k then v else f x

/-- Point update of the cycle-count map. -/
def setCount (f : String → ℕ) (k : String) (v : ℕ) : String → ℕ :=
  fun x => if x = k then v else f x

/-- The guard `beginStreamProcessing` (warmer.go lines 277-287): under the stream
lock, report false when the flag is already set, otherwise set the flag
and report true. -/
def beginStreamProcessing (s : DaemonState) (stream : String) : Bool × DaemonState :=
  if s.streamActive stream then (false, s)
  else (true, ⟨setFlag s.streamActive stream true, s.runningCycles⟩)

/-- The tick handler `scheduleStreamWarm` (part_001 lines 43-55): when the begin
check-and-set reports false the tick returns immediately — nothing is
queued and the caller never blocks; when it reports true a warm-cycle
routine is spawned, modelled by incrementing the stream's running-cycle
count. -/
def scheduleStreamWarm (s : DaemonState) (stream : String) : DaemonState :=
  let p := beginStreamProcessing s stream
  if p.1 then
    ⟨p.2.streamActive, setCount p.2.runningCycles stream (p.2.runningCycles stream + 1)⟩
  else p.2

/-- Completion of a spawned warm-cycle routine: `warmStreamOnce` returns
— successfully or after a parse failure — and the deferred
`endStreamProcessing` (warmer.go lines 290-294, part_001 line 52)
deletes the stream's flag. -/
def completeStreamCycle (s : DaemonState) (stream : String) : DaemonState :=
  ⟨setFlag s.streamActive stream false,
   setCount s.runningCycles stream (s.runningCycles stream - 1)⟩

/-- Daemon events: a scheduler tick for any stream (initial kick-off or
ticker fire), or completion of one of the running warm-cycle
routines. -/
inductive DaemonStep : DaemonState → DaemonState → Prop
  | tick (s : DaemonState) (stream : String) :
      DaemonStep s (scheduleStreamWarm s stream)
  | complete (s : DaemonState) (stream : String)
      (h : 0 < s.runningCycles stream) :
      DaemonStep s (completeStreamCycle s stream)

/-- The daemon's start state: no flags set, no cycles running. -/
def initDaemon : DaemonState :=
  ⟨fun _ => false, fun _ => 0⟩

/-- Daemon states reachable while the daemon runs. -/
def DaemonReachable (s : DaemonState) : Prop :=
  Relation.ReflTransGen DaemonStep initDaemon s

theorem daemon_invariant (s : DaemonState) (h : DaemonReachable s) :
    ∀ stream, s.runningCycles stream = (if s.streamActive stream then 1 else 0) := by
  induction h with
  | refl =>
    intro stream
    simp [initDaemon]
  | @tail b c hr hstep ih =>
    cases hstep with
    | tick stream =>
      intro str
      by_cases hfl : b.streamActive stream
      · have hskip : scheduleStreamWarm b stream = b := by
          simp [scheduleStreamWarm, beginStreamProcessing, hfl]
        rw [hskip]
        exact ih str
      · have hnew : scheduleStreamWarm b stream =
            ⟨setFlag b.streamActive stream true,
             setCount b.runningCycles stream (b.runningCycles stream + 1)⟩ := by
          simp [scheduleStreamWarm, beginStreamProcessing, hfl]
        rw [hnew]
        by_cases hstr : str = stream
        · subst hstr
          simp [setCount, setFlag, ih str, hfl]
        · simp [setCount, setFlag, hstr, ih str]
    | complete stream hrun =>
      intro str
      by_cases hstr : str = stream
      · subst hstr
        have h1 : b.runningCycles str = 1 := by
          rw [ih str] at hrun ⊢
          by_cases hb : b.streamActive str <;> simp [hb] at hrun ⊢
        simp [completeStreamCycle, setCount, setFlag, h1]
      · simp [completeStreamCycle, setCount, setFlag, hstr, ih str]

/-- C2: in every reachable daemon state, at most one warm cycle per
playlist is running; the activity flag is set exactly while a cycle is
in flight; a tick that finds the flag set leaves the state unchanged (a
no-op skip — nothing queued, nothing blocked); and completion of the
cycle's routine clears the flag, whether the cycle succeeded or
failed. -/
theorem C2_single_cycle_per_stream (s : DaemonState) (stream : String)
    (hr : DaemonReachable s) :
    s.runningCycles stream ≤ 1 ∧
    (s.streamActive stream = true ↔ s.runningCycles stream = 1) ∧
    (s.streamActive stream = true → scheduleStreamWarm s stream = s) ∧
    (completeStreamCycle s stream).streamActive stream = false := by
  have hinv := daemon_invariant s hr stream
  refine ⟨?_, ?_, ?_, ?_⟩
  · rw [hinv]
    by_cases h : s.streamActive stream <;> simp [h]
  · rw [hinv]
    by_cases h : s.streamActive stream <;> simp [h]
  · intro hfl
    simp [scheduleStreamWarm, beginStreamProcessing, hfl]
  · simp [completeStreamCycle, setFlag]

theorem C2_single_cycle_per_stream_witness :
    (scheduleStreamWarm initDaemon "s1").runningCycles "s1" ≤ 1 ∧
    ((scheduleStreamWarm initDaemon "s1").streamActive "s1" = true ↔
      (scheduleStreamWarm initDaemon "s1").runningCycles "s1" = 1) ∧
    ((scheduleStreamWarm initDaemon "s1").streamActive "s1" = true →
      scheduleStreamWarm (scheduleStreamWarm initDaemon "s1") "s1" =
        scheduleStreamWarm initDaemon "s1") ∧
    (completeStreamCycle (scheduleStreamWarm initDaemon "s1") "s1").streamActive "s1" =
      false :=
  C2_single_cycle_per_stream (scheduleStreamWarm initDaemon "s1") "s1"
    (Relation.ReflTransGen.single (DaemonStep.tick initDaemon "s1"))

/-! ## Error-text sanitisation on the reporting paths -/

/-- The parse-failure error text built by `WarmM3U8` (warmer.go line
103): `fmt.Errorf("M3U8 parse error: %v", err)` embeds the underlying
transport error's message verbatim — no `cleanString` is applied on this
path, and `runOnceMode` (the single-pass driver) logs it as is. -/
def warmM3U8ParseErrorText (transportMsg : String) : String :=
  "M3U8 parse error: " ++ transportMsg

/-- The error text recorded in a fetch outcome by `warmSegment`
(warmer.go lines 184 and 197): the raw error message passed through
`cleanString` before being wrapped and later displayed. -/
def warmSegmentErrorText (raw : String) : String :=
  cleanString raw

/-- The parse-failure text logged by a daemon tick (`warmStreamOnce`,
part_001 line 62): the raw error message passed through
`cleanString`. -/
def daemonParseErrorText (raw : String) : String :=
  cleanString raw

/-- C7 counterexample: the playlist-parse failure message displayed in
single-pass mode is not sanitized — a transport error message consisting
of the single byte 0x07 reaches the display text unchanged, so the
displayed message contains a non-printable byte, contrary to the
claim. -/
theorem C7_counterexample :
    ((warmM3U8ParseErrorText "\x07").data.all keepRune) = false := by
  decide

/-- C7 amended: the error texts of segment fetch failures and of
daemon-mode parse failures are sanitized (contain no non-printable
bytes) before display, but the single-pass playlist-parse failure
message is displayed unsanitized: some transport error message yields
display text containing non-printable bytes. -/
theorem C7_sanitized_paths (raw : String) :
    (warmSegmentErrorText raw).data.all keepRune = true ∧
    (daemonParseErrorText raw).data.all keepRune = true ∧
    ∃ m, ((warmM3U8ParseErrorText m).data.all keepRune) = false :=
  ⟨cleanString_all_keepRune raw, cleanString_all_keepRune raw,
   "\x07", by decide⟩
